import Mathlib

/-!
Shallow embedding of `lib/file/ordered_map.go` from the nps-djylb
repository: an ordered concurrency-safe map (`OrderedSyncMap`) whose
operations keep an ascending index of live keys alongside the data map.

Modelling decisions:
* The Go `map[int]interface{}` field `data` is modelled as an association
  list `List (Int × V)`; Go map assignment replaces the (unique) binding
  in place, deletion removes it, and `len` is the number of bindings.
* The Go `map[int]bool` field `keySet` is modelled as the list of keys
  mapped to `true` (the code only ever assigns `true` and deletes).
* Go's `sort.SearchInts(keys, k)` is modelled by its documented contract
  on the sorted slices the container maintains: the smallest index whose
  element is `≥ k` (equivalently, the number of leading elements `< k`).
* The slice insertion `append` / `copy` shift in `Store` / `LoadOrStore`
  is `insertAt`, and the deletion shift in `Delete` / `LoadAndDelete` is
  `eraseFound` (which keeps the guarded bounds/equality check of the Go
  code).
* The RWMutex is not represented: every public operation is one critical
  section covering the whole body, so concurrent executions linearize to
  sequences of the pure state transformers modelled here.
* Go `interface{}` values are an arbitrary type `V`; the zero value `nil`
  returned on missing keys is `default` of an `Inhabited` instance.
* The `key.(int)` type assertion at each operation's entry is modelled by
  the `GoKey` dynamic-key boundary at the end of the definitions: a
  non-`int` key panics, producing no normal result and (since the
  assertion precedes every mutation) leaving the state unchanged.
-/

namespace OrderedMap

/-- Lookup in an association list modelling a Go map read:
`v, ok := m[k]` returns the binding of `k` if present. -/
def mapLookup {V : Type} : List (Int × V) → Int → Option V
  | [], _ => none
  | (a, v) :: rest, k => if a = k then some v else mapLookup rest k

/-- Go map assignment `m[k] = v`: replace the binding of `k` if present,
otherwise add a new binding. -/
def mapUpdate {V : Type} : List (Int × V) → Int → V → List (Int × V)
  | [], k, v => [(k, v)]
  | (a, w) :: rest, k, v =>
      if a = k then (k, v) :: rest else (a, w) :: mapUpdate rest k v

/-- Go map deletion `delete(m, k)`: drop the binding of `k`. -/
def mapErase {V : Type} : List (Int × V) → Int → List (Int × V)
  | [], _ => []
  | (a, w) :: rest, k => if a = k then rest else (a, w) :: mapErase rest k

/-- Go `m.keySet[k] = true` on the set-of-keys view of `map[int]bool`. -/
def setInsert (l : List Int) (k : Int) : List Int :=
  if k ∈ l then l else l ++ [k]

/-- Go `sort.SearchInts(l, k)`: on the sorted slices the container maintains,
the smallest index whose element is `≥ k`, i.e. the number of leading
elements `< k`. -/
def searchInts : List Int → Int → Nat
  | [], _ => 0
  | a :: rest, k => if a < k then searchInts rest k + 1 else 0

/-- The slice-insertion shift
`keys = append(keys, 0); copy(keys[pos+1:], keys[pos:]); keys[pos] = k`:
insert `k` at index `pos`. -/
def insertAt : Nat → Int → List Int → List Int
  | 0, k, l => k :: l
  | _ + 1, k, [] => [k]
  | n + 1, k, a :: l => a :: insertAt n k l

/-- The slice-deletion shift `keys = append(keys[:pos], keys[pos+1:]...)`:
remove the element at index `pos`. -/
def eraseAt : Nat → List Int → List Int
  | _, [] => []
  | 0, _ :: l => l
  | n + 1, a :: l => a :: eraseAt n l

/-- The guarded index-removal block of `Delete` and `LoadAndDelete`:
`pos := sort.SearchInts(keys, k); if pos < len(keys) && keys[pos] == k
{ keys = append(keys[:pos], keys[pos+1:]...) }`. -/
def eraseFound (l : List Int) (k : Int) : List Int :=
  let pos := searchInts l k
  if l.get? pos = some k then eraseAt pos l else l

/-- The struct `OrderedSyncMap` (minus the mutex, see module comment):
`data map[int]interface{}`, `keys []int`, `keySet map[int]bool`. -/
structure OrderedSyncMap (V : Type) where
  data : List (Int × V)
  keys : List Int
  keySet : List Int

/-- Constructor `NewOrderedSyncMap()`: empty data map, empty key slice, empty key set. -/
def NewOrderedSyncMap (V : Type) : OrderedSyncMap V :=
  { data := [], keys := [], keySet := [] }

/-- The insertion block shared verbatim by `Store` (absent-key branch) and
`LoadOrStore` (absent-key branch): binary-search the position, shift the
key slice, record the key in `keySet`, write the value into `data`. -/
def insertNew {V : Type} (m : OrderedSyncMap V) (k : Int) (v : V) :
    OrderedSyncMap V :=
  { data := mapUpdate m.data k v,
    keys := insertAt (searchInts m.keys k) k m.keys,
    keySet := setInsert m.keySet k }

/-- The removal block shared verbatim by `Delete` (present-key branch) and
`LoadAndDelete` (present-key branch): guarded index removal, then delete
from `keySet` and `data`. -/
def removeKey {V : Type} (m : OrderedSyncMap V) (k : Int) :
    OrderedSyncMap V :=
  { data := mapErase m.data k,
    keys := eraseFound m.keys k,
    keySet := m.keySet.erase k }

/-- Method `Store(key, value)`: if `!m.keySet[k]`, insert `k` into the ordered
index (and `keySet`); in all cases `m.data[k] = value`. -/
def Store {V : Type} (m : OrderedSyncMap V) (k : Int) (v : V) :
    OrderedSyncMap V :=
  if k ∈ m.keySet then { m with data := mapUpdate m.data k v }
  else insertNew m k v

/-- Method `Load(key)`: `value, ok = m.data[k]`; the zero value (`nil`) is
returned when the key is absent. -/
def Load {V : Type} [Inhabited V] (m : OrderedSyncMap V) (k : Int) :
    V × Bool :=
  match mapLookup m.data k with
  | some v => (v, true)
  | none => (default, false)

/-- Method `Delete(key)`: if `m.keySet[k]`, remove from the index, `keySet` and
`data`; otherwise do nothing. -/
def Delete {V : Type} (m : OrderedSyncMap V) (k : Int) : OrderedSyncMap V :=
  if k ∈ m.keySet then removeKey m k else m

/-- Method `LoadOrStore(key, value)`: if `m.data[k]` is present return it with
`loaded = true` and no mutation; otherwise run the insertion block and
return `(value, false)`. The first component is the resulting state. -/
def LoadOrStore {V : Type} (m : OrderedSyncMap V) (k : Int) (v : V) :
    OrderedSyncMap V × V × Bool :=
  match mapLookup m.data k with
  | some w => (m, w, true)
  | none => (insertNew m k v, v, false)

/-- Method `LoadAndDelete(key)`: if `m.data[k]` is present, run the removal block
and return `(v, true)`; otherwise return `(nil, false)` with no mutation.
The first component is the resulting state. -/
def LoadAndDelete {V : Type} [Inhabited V] (m : OrderedSyncMap V) (k : Int) :
    OrderedSyncMap V × V × Bool :=
  match mapLookup m.data k with
  | some v => (removeKey m k, v, true)
  | none => (m, default, false)

/-- Method `Len()`: `len(m.data)`, the number of bindings in the data map. -/
def Len {V : Type} (m : OrderedSyncMap V) : Nat :=
  m.data.length

/-- Method `Keys()`: a copy of the ordered key slice. -/
def Keys {V : Type} (m : OrderedSyncMap V) : List Int :=
  m.keys

/-- The loop body of `Range(f)`: walk `m.keys` in order; keys missing from
`data` are skipped; the walk stops after the first entry on which `f`
returns `false`. Returns the list of entries `f` was invoked on, in
invocation order. -/
def rangeAux {V : Type} (data : List (Int × V)) (f : Int → V → Bool) :
    List Int → List (Int × V)
  | [] => []
  | k :: rest =>
      match mapLookup data k with
      | some v =>
          if f k v then (k, v) :: rangeAux data f rest else [(k, v)]
      | none => rangeAux data f rest

/-- Method `Range(f)`: ordered traversal of the live entries (as the list of
entries visited, in order). -/
def Range {V : Type} (m : OrderedSyncMap V) (f : Int → V → Bool) :
    List (Int × V) :=
  rangeAux m.data f m.keys

/-- A mutating operation of the API, for stating invariant preservation
over arbitrary operation sequences. -/
inductive Op (V : Type) where
  | store (k : Int) (v : V)
  | delete (k : Int)
  | loadOrStore (k : Int) (v : V)
  | loadAndDelete (k : Int)

/-- Apply one operation, keeping only the resulting state. -/
def applyOp {V : Type} [Inhabited V] (m : OrderedSyncMap V) :
    Op V → OrderedSyncMap V
  | .store k v => Store m k v
  | .delete k => Delete m k
  | .loadOrStore k v => (LoadOrStore m k v).1
  | .loadAndDelete k => (LoadAndDelete m k).1

/-- Apply a sequence of operations from left to right. -/
def applyOps {V : Type} [Inhabited V] (m : OrderedSyncMap V) :
    List (Op V) → OrderedSyncMap V
  | [] => m
  | op :: rest => applyOps (applyOp m op) rest

/-- Well-formedness of a container state: the invariants of the data
model, stated with list-bounded quantifiers so that they are decidable on
concrete states. -/
def Wf {V : Type} (m : OrderedSyncMap V) : Prop :=
  m.keys.Pairwise (· < ·) ∧
  (m.data.map Prod.fst).Nodup ∧
  m.keySet.Nodup ∧
  (∀ k ∈ m.keys, (mapLookup m.data k).isSome) ∧
  (∀ p ∈ m.data, p.1 ∈ m.keys) ∧
  (∀ k ∈ m.keys, k ∈ m.keySet) ∧
  (∀ k ∈ m.keySet, k ∈ m.keys) ∧
  m.data.length = m.keys.length

instance {V : Type} (m : OrderedSyncMap V) : Decidable (Wf m) := by
  unfold Wf
  exact inferInstance

/-- A dynamically typed key, as passed to the Go methods through their
`interface{}` parameter. -/
inductive GoKey where
  | int (i : Int)
  | str (s : String)

/-- The type assertion `k := key.(int)`: succeeds exactly on `int` keys. -/
def asInt : GoKey → Option Int
  | .int i => some i
  | .str _ => none

/-- Method `Store` called through the `interface{}` boundary. The result is the
state after the call together with `some ()` on normal return; a failed
type assertion panics before any mutation, modelled as `none` with the
state unchanged. -/
def StoreDyn {V : Type} (m : OrderedSyncMap V) (key : GoKey) (v : V) :
    OrderedSyncMap V × Option Unit :=
  match asInt key with
  | some k => (Store m k v, some ())
  | none => (m, none)

/-- Method `Load` called through the `interface{}` boundary. -/
def LoadDyn {V : Type} [Inhabited V] (m : OrderedSyncMap V) (key : GoKey) :
    OrderedSyncMap V × Option (V × Bool) :=
  match asInt key with
  | some k => (m, some (Load m k))
  | none => (m, none)

/-- Method `Delete` called through the `interface{}` boundary. -/
def DeleteDyn {V : Type} (m : OrderedSyncMap V) (key : GoKey) :
    OrderedSyncMap V × Option Unit :=
  match asInt key with
  | some k => (Delete m k, some ())
  | none => (m, none)

/-- Method `LoadOrStore` called through the `interface{}` boundary. -/
def LoadOrStoreDyn {V : Type} (m : OrderedSyncMap V) (key : GoKey) (v : V) :
    OrderedSyncMap V × Option (V × Bool) :=
  match asInt key with
  | some k =>
      let r := LoadOrStore m k v
      (r.1, some (r.2.1, r.2.2))
  | none => (m, none)

/-- Method `LoadAndDelete` called through the `interface{}` boundary. -/
def LoadAndDeleteDyn {V : Type} [Inhabited V] (m : OrderedSyncMap V)
    (key : GoKey) : OrderedSyncMap V × Option (V × Bool) :=
  match asInt key with
  | some k =>
      let r := LoadAndDelete m k
      (r.1, some (r.2.1, r.2.2))
  | none => (m, none)

/-- A run of `N` sequential `LoadOrStore(k, vᵢ)` calls (the linearization which the
write lock forces on `N` concurrent callers, in lock-acquisition order):
the final state and the list of `(actual, loaded)` results per caller. -/
def runLoadOrStores {V : Type} (m : OrderedSyncMap V) (k : Int) :
    List V → OrderedSyncMap V × List (V × Bool)
  | [] => (m, [])
  | v :: vs =>
      let r := LoadOrStore m k v
      let rest := runLoadOrStores r.1 k vs
      (rest.1, (r.2.1, r.2.2) :: rest.2)

section BasicLemmas

variable {V : Type}

theorem mapLookup_update_self (l : List (Int × V)) (k : Int) (v : V) :
    mapLookup (mapUpdate l k v) k = some v := by
  induction l with
  | nil => simp [mapUpdate, mapLookup]
  | cons p rest ih =>
      obtain ⟨a, w⟩ := p
      by_cases h : a = k
      · simp [mapUpdate, h, mapLookup]
      · simp [mapUpdate, h, mapLookup, ih]

theorem mapLookup_update_ne (l : List (Int × V)) {k k' : Int} (v : V)
    (h : k' ≠ k) : mapLookup (mapUpdate l k v) k' = mapLookup l k' := by
  have hkk : ¬(k = k') := fun hh => h hh.symm
  induction l with
  | nil => simp [mapUpdate, mapLookup, hkk]
  | cons p rest ih =>
      obtain ⟨a, w⟩ := p
      by_cases ha : a = k
      · subst ha
        simp [mapUpdate, mapLookup, hkk]
      · simp [mapUpdate, ha, mapLookup, ih]

theorem mapLookup_erase_ne (l : List (Int × V)) {k k' : Int}
    (h : k' ≠ k) : mapLookup (mapErase l k) k' = mapLookup l k' := by
  have hkk : ¬(k = k') := fun hh => h hh.symm
  induction l with
  | nil => simp [mapErase]
  | cons p rest ih =>
      obtain ⟨a, w⟩ := p
      by_cases ha : a = k
      · subst ha
        simp [mapErase, mapLookup, hkk]
      · simp [mapErase, ha, mapLookup, ih]

theorem mapLookup_isSome_iff (l : List (Int × V)) (k : Int) :
    (mapLookup l k).isSome ↔ k ∈ l.map Prod.fst := by
  induction l with
  | nil => simp [mapLookup]
  | cons p rest ih =>
      obtain ⟨a, w⟩ := p
      by_cases h : a = k
      · subst h; simp [mapLookup]
      · have hka : ¬(k = a) := fun hh => h hh.symm
        simp [mapLookup, h, ih, hka]

theorem mapErase_of_lookup_none (l : List (Int × V)) (k : Int)
    (h : mapLookup l k = none) : mapErase l k = l := by
  induction l with
  | nil => simp [mapErase]
  | cons p rest ih =>
      obtain ⟨a, w⟩ := p
      by_cases ha : a = k
      · simp [mapLookup, ha] at h
      · simp only [mapLookup, if_neg ha] at h
        simp [mapErase, ha, ih h]

theorem map_fst_mapErase (l : List (Int × V)) (k : Int) :
    (mapErase l k).map Prod.fst = (l.map Prod.fst).erase k := by
  induction l with
  | nil => simp [mapErase]
  | cons p rest ih =>
      obtain ⟨a, w⟩ := p
      by_cases ha : a = k
      · subst ha
        simp [mapErase, List.erase_cons_head]
      · have hba : ¬((a : Int) == k) = true := by simp [ha]
        simp [mapErase, ha, List.erase_cons_tail hba, ih]

theorem mem_of_mem_mapErase {l : List (Int × V)} {k : Int} {p : Int × V}
    (h : p ∈ mapErase l k) : p ∈ l := by
  induction l with
  | nil => simp [mapErase] at h
  | cons q rest ih =>
      obtain ⟨a, w⟩ := q
      by_cases ha : a = k
      · simp only [mapErase, if_pos ha] at h
        exact List.mem_cons_of_mem _ h
      · simp only [mapErase, if_neg ha] at h
        rcases List.mem_cons.mp h with h | h
        · exact h ▸ List.mem_cons_self _ _
        · exact List.mem_cons_of_mem _ (ih h)

theorem fst_ne_of_mem_mapErase {l : List (Int × V)} {k : Int} {p : Int × V}
    (hnd : (l.map Prod.fst).Nodup) (h : p ∈ mapErase l k) : p.1 ≠ k := by
  induction l with
  | nil => simp [mapErase] at h
  | cons q rest ih =>
      obtain ⟨a, w⟩ := q
      simp only [List.map_cons, List.nodup_cons] at hnd
      by_cases ha : a = k
      · subst ha
        simp only [mapErase, if_pos rfl] at h
        intro hpk
        exact hnd.1 (hpk ▸ List.mem_map_of_mem Prod.fst h)
      · simp only [mapErase, if_neg ha] at h
        rcases List.mem_cons.mp h with h | h
        · subst h; exact ha
        · exact ih hnd.2 h

theorem mapLookup_erase_self {l : List (Int × V)} {k : Int}
    (hnd : (l.map Prod.fst).Nodup) : mapLookup (mapErase l k) k = none := by
  cases hk : mapLookup (mapErase l k) k with
  | none => rfl
  | some v =>
      exfalso
      have hmem : k ∈ (mapErase l k).map Prod.fst := by
        rw [← mapLookup_isSome_iff, hk]; rfl
      rcases List.mem_map.mp hmem with ⟨p, hp, hpk⟩
      exact fst_ne_of_mem_mapErase hnd hp hpk

theorem mem_of_mem_mapUpdate {l : List (Int × V)} {k : Int} {v : V}
    {p : Int × V} (h : p ∈ mapUpdate l k v) : p = (k, v) ∨ p ∈ l := by
  induction l with
  | nil => simp [mapUpdate] at h; exact Or.inl h
  | cons q rest ih =>
      obtain ⟨a, w⟩ := q
      by_cases ha : a = k
      · simp only [mapUpdate, if_pos ha] at h
        rcases List.mem_cons.mp h with h | h
        · exact Or.inl h
        · exact Or.inr (List.mem_cons_of_mem _ h)
      · simp only [mapUpdate, if_neg ha] at h
        rcases List.mem_cons.mp h with h | h
        · exact Or.inr (h ▸ List.mem_cons_self _ _)
        · rcases ih h with h | h
          · exact Or.inl h
          · exact Or.inr (List.mem_cons_of_mem _ h)

theorem map_fst_update_of_lookup_none {l : List (Int × V)} {k : Int}
    (v : V) (h : mapLookup l k = none) :
    (mapUpdate l k v).map Prod.fst = l.map Prod.fst ++ [k] := by
  induction l with
  | nil => simp [mapUpdate]
  | cons q rest ih =>
      obtain ⟨a, w⟩ := q
      by_cases ha : a = k
      · simp [mapLookup, ha] at h
      · simp only [mapLookup, if_neg ha] at h
        simp [mapUpdate, ha, ih h]

theorem map_fst_update_of_lookup_some {l : List (Int × V)} {k : Int}
    (v : V) (h : (mapLookup l k).isSome) :
    (mapUpdate l k v).map Prod.fst = l.map Prod.fst := by
  induction l with
  | nil => simp [mapLookup] at h
  | cons q rest ih =>
      obtain ⟨a, w⟩ := q
      by_cases ha : a = k
      · subst ha; simp [mapUpdate]
      · simp only [mapLookup, if_neg ha] at h
        simp [mapUpdate, ha, ih h]

theorem length_mapUpdate_of_lookup_none {l : List (Int × V)} {k : Int}
    (v : V) (h : mapLookup l k = none) :
    (mapUpdate l k v).length = l.length + 1 := by
  have := map_fst_update_of_lookup_none v h
  have h1 : ((mapUpdate l k v).map Prod.fst).length =
      (l.map Prod.fst ++ [k]).length := by rw [this]
  simpa using h1

theorem length_mapUpdate_of_lookup_some {l : List (Int × V)} {k : Int}
    (v : V) (h : (mapLookup l k).isSome) :
    (mapUpdate l k v).length = l.length := by
  have := map_fst_update_of_lookup_some v h
  have h1 : ((mapUpdate l k v).map Prod.fst).length =
      (l.map Prod.fst).length := by rw [this]
  simpa using h1

theorem length_mapErase (l : List (Int × V)) (k : Int) :
    (mapErase l k).length = ((l.map Prod.fst).erase k).length := by
  have := map_fst_mapErase l k
  have h1 : ((mapErase l k).map Prod.fst).length =
      ((l.map Prod.fst).erase k).length := by rw [this]
  simpa using h1

theorem searchInts_le_length (l : List Int) (k : Int) :
    searchInts l k ≤ l.length := by
  induction l with
  | nil => simp [searchInts]
  | cons a rest ih =>
      by_cases h : a < k
      · simp only [searchInts, if_pos h, List.length_cons]
        omega
      · simp [searchInts, h]

theorem lt_of_mem_take_searchInts {l : List Int} {k x : Int}
    (h : x ∈ l.take (searchInts l k)) : x < k := by
  induction l with
  | nil => simp [searchInts] at h
  | cons a rest ih =>
      by_cases ha : a < k
      · simp only [searchInts, if_pos ha, List.take_succ_cons] at h
        rcases List.mem_cons.mp h with h | h
        · exact h ▸ ha
        · exact ih h
      · simp [searchInts, ha] at h

theorem le_of_mem_drop_searchInts {l : List Int} {k x : Int}
    (hs : l.Pairwise (· < ·)) (h : x ∈ l.drop (searchInts l k)) : k ≤ x := by
  induction l with
  | nil => simp [searchInts] at h
  | cons a rest ih =>
      rw [List.pairwise_cons] at hs
      by_cases ha : a < k
      · simp only [searchInts, if_pos ha, List.drop_succ_cons] at h
        exact ih hs.2 h
      · push_neg at ha
        simp only [searchInts, if_neg (not_lt.mpr ha), List.drop_zero] at h
        rcases List.mem_cons.mp h with h | h
        · exact h ▸ ha
        · exact le_of_lt (lt_of_le_of_lt ha (hs.1 x h))

theorem insertAt_eq_take_drop (k : Int) :
    ∀ (n : Nat) (l : List Int), n ≤ l.length →
      insertAt n k l = l.take n ++ k :: l.drop n := by
  intro n
  induction n with
  | zero => intro l _; simp [insertAt]
  | succ n ih =>
      intro l hl
      cases l with
      | nil => simp at hl
      | cons a rest =>
          simp only [insertAt, List.take_succ_cons, List.drop_succ_cons,
            List.cons_append]
          rw [ih rest (by simpa using hl)]

theorem mem_insertAt (a k : Int) :
    ∀ (n : Nat) (l : List Int), a ∈ insertAt n k l ↔ a = k ∨ a ∈ l := by
  intro n
  induction n with
  | zero => intro l; simp [insertAt]
  | succ n ih =>
      intro l
      cases l with
      | nil => simp [insertAt]
      | cons b rest =>
          simp only [insertAt, List.mem_cons, ih rest]
          tauto

theorem length_insertAt (k : Int) :
    ∀ (n : Nat) (l : List Int), (insertAt n k l).length = l.length + 1 := by
  intro n
  induction n with
  | zero => intro l; simp [insertAt]
  | succ n ih =>
      intro l
      cases l with
      | nil => simp [insertAt]
      | cons b rest => simp [insertAt, ih rest]

theorem pairwise_insertAt {l : List Int} {k : Int}
    (hs : l.Pairwise (· < ·)) (hk : k ∉ l) :
    (insertAt (searchInts l k) k l).Pairwise (· < ·) := by
  induction l with
  | nil => simp [searchInts, insertAt]
  | cons a rest ih =>
      rw [List.pairwise_cons] at hs
      have hk1 : k ≠ a := fun h => hk (h ▸ List.mem_cons_self _ _)
      have hk2 : k ∉ rest := fun h => hk (List.mem_cons_of_mem _ h)
      by_cases ha : a < k
      · simp only [searchInts, if_pos ha, insertAt]
        rw [List.pairwise_cons]
        refine ⟨fun b hb => ?_, ih hs.2 hk2⟩
        rcases (mem_insertAt b k _ rest).mp hb with h | h
        · exact h ▸ ha
        · exact hs.1 b h
      · simp only [searchInts, if_neg ha, insertAt]
        push_neg at ha
        have hka : k < a := lt_of_le_of_ne ha hk1
        rw [List.pairwise_cons]
        refine ⟨fun b hb => ?_, List.pairwise_cons.mpr hs⟩
        rcases List.mem_cons.mp hb with h | h
        · exact h ▸ hka
        · exact lt_trans hka (hs.1 b h)

theorem nodup_of_pairwise_lt {l : List Int} (hs : l.Pairwise (· < ·)) :
    l.Nodup :=
  List.Pairwise.imp (fun h => ne_of_lt h) hs

theorem eraseFound_eq_erase {l : List Int} (k : Int)
    (hs : l.Pairwise (· < ·)) : eraseFound l k = l.erase k := by
  induction l with
  | nil => simp [eraseFound, searchInts]
  | cons a rest ih =>
      rw [List.pairwise_cons] at hs
      by_cases ha : a < k
      · have hane : a ≠ k := ne_of_lt ha
        have hne : ¬((a : Int) == k) = true := by simp [hane]
        have step : eraseFound (a :: rest) k = a :: eraseFound rest k := by
          simp only [eraseFound, searchInts, if_pos ha, List.get?_cons_succ,
            eraseAt]
          split <;> rfl
        rw [step, ih hs.2, List.erase_cons_tail hne]
      · by_cases hak : a = k
        · subst hak
          simp [eraseFound, searchInts, eraseAt, List.erase_cons_head]
        · have hne : ¬((a : Int) == k) = true := by simp [hak]
          have hkrest : k ∉ rest := fun hmem => ha (hs.1 k hmem)
          simp [eraseFound, searchInts, ha, hak,
            List.erase_cons_tail hne, List.erase_of_not_mem hkrest]

theorem pairwise_erase {l : List Int} (k : Int)
    (hs : l.Pairwise (· < ·)) : (l.erase k).Pairwise (· < ·) :=
  List.Pairwise.sublist (List.erase_sublist k l) hs

end BasicLemmas

section WfLemmas

variable {V : Type}

theorem Wf.sorted {m : OrderedSyncMap V} (h : Wf m) :
    m.keys.Pairwise (· < ·) := h.1

theorem Wf.nodupData {m : OrderedSyncMap V} (h : Wf m) :
    (m.data.map Prod.fst).Nodup := h.2.1

theorem Wf.nodupKeySet {m : OrderedSyncMap V} (h : Wf m) :
    m.keySet.Nodup := h.2.2.1

theorem Wf.lookupOfMem {m : OrderedSyncMap V} (h : Wf m) :
    ∀ k ∈ m.keys, (mapLookup m.data k).isSome := h.2.2.2.1

theorem Wf.fstMem {m : OrderedSyncMap V} (h : Wf m) :
    ∀ p ∈ m.data, p.1 ∈ m.keys := h.2.2.2.2.1

theorem Wf.keysSubKeySet {m : OrderedSyncMap V} (h : Wf m) :
    ∀ k ∈ m.keys, k ∈ m.keySet := h.2.2.2.2.2.1

theorem Wf.keySetSubKeys {m : OrderedSyncMap V} (h : Wf m) :
    ∀ k ∈ m.keySet, k ∈ m.keys := h.2.2.2.2.2.2.1

theorem Wf.lenEq {m : OrderedSyncMap V} (h : Wf m) :
    m.data.length = m.keys.length := h.2.2.2.2.2.2.2

theorem Wf.mem_keys_iff_lookup {m : OrderedSyncMap V} (h : Wf m) (k : Int) :
    k ∈ m.keys ↔ (mapLookup m.data k).isSome := by
  constructor
  · exact h.lookupOfMem k
  · intro hk
    rw [mapLookup_isSome_iff] at hk
    rcases List.mem_map.mp hk with ⟨p, hp, hpk⟩
    exact hpk ▸ h.fstMem p hp

theorem Wf.mem_keys_iff_keySet {m : OrderedSyncMap V} (h : Wf m) (k : Int) :
    k ∈ m.keys ↔ k ∈ m.keySet :=
  ⟨h.keysSubKeySet k, h.keySetSubKeys k⟩

theorem Wf.not_mem_keys_of_lookup_none {m : OrderedSyncMap V} (h : Wf m)
    {k : Int} (hl : mapLookup m.data k = none) : k ∉ m.keys := by
  intro hk
  have := h.lookupOfMem k hk
  rw [hl] at this
  exact absurd this (by simp)

theorem Wf.lookup_none_of_not_keySet {m : OrderedSyncMap V} (h : Wf m)
    {k : Int} (hk : k ∉ m.keySet) : mapLookup m.data k = none := by
  cases hc : mapLookup m.data k with
  | none => rfl
  | some v =>
      exfalso
      have hsome : (mapLookup m.data k).isSome := by rw [hc]; rfl
      exact hk (h.keysSubKeySet k ((h.mem_keys_iff_lookup k).mpr hsome))

theorem wf_new : Wf (NewOrderedSyncMap V) := by
  refine ⟨?_, ?_, ?_, ?_, ?_, ?_, ?_, ?_⟩ <;>
    simp [NewOrderedSyncMap, mapLookup]

theorem wf_insertNew {m : OrderedSyncMap V} {k : Int} (v : V) (h : Wf m)
    (habs : mapLookup m.data k = none) : Wf (insertNew m k v) := by
  have hkkeys : k ∉ m.keys := h.not_mem_keys_of_lookup_none habs
  have hkset : k ∉ m.keySet := fun hk =>
    hkkeys ((h.mem_keys_iff_keySet k).mpr hk)
  have hkdata : k ∉ m.data.map Prod.fst := by
    rw [← mapLookup_isSome_iff, habs]
    simp
  obtain ⟨hs, hnd, hns, hlk, hdk, hks, hsk, hlen⟩ := h
  have hdata : (insertNew m k v).data = mapUpdate m.data k v := rfl
  have hkeys : (insertNew m k v).keys =
      insertAt (searchInts m.keys k) k m.keys := rfl
  have hset : (insertNew m k v).keySet = m.keySet ++ [k] := by
    simp [insertNew, setInsert, hkset]
  refine ⟨?_, ?_, ?_, ?_, ?_, ?_, ?_, ?_⟩
  · rw [hkeys]
    exact pairwise_insertAt hs hkkeys
  · rw [hdata, map_fst_update_of_lookup_none v habs]
    simp [List.nodup_append, hnd, hkdata]
  · rw [hset]
    simp [List.nodup_append, hns, hkset]
  · intro a ha
    rw [hkeys] at ha
    rw [hdata]
    rcases (mem_insertAt a k _ m.keys).mp ha with rfl | ha'
    · rw [mapLookup_update_self]
      rfl
    · have hne : a ≠ k := fun hh => hkkeys (hh ▸ ha')
      rw [mapLookup_update_ne _ v hne]
      exact hlk a ha'
  · intro p hp
    rw [hdata] at hp
    rw [hkeys]
    rcases mem_of_mem_mapUpdate hp with rfl | hp'
    · exact (mem_insertAt _ k _ m.keys).mpr (Or.inl rfl)
    · exact (mem_insertAt _ k _ m.keys).mpr (Or.inr (hdk p hp'))
  · intro a ha
    rw [hkeys] at ha
    rw [hset]
    rcases (mem_insertAt a k _ m.keys).mp ha with rfl | ha'
    · simp
    · simp [hks a ha']
  · intro a ha
    rw [hset] at ha
    rw [hkeys]
    rcases List.mem_append.mp ha with ha' | ha'
    · exact (mem_insertAt a k _ m.keys).mpr (Or.inr (hsk a ha'))
    · simp at ha'
      exact (mem_insertAt a k _ m.keys).mpr (Or.inl ha')
  · rw [hdata, hkeys, length_mapUpdate_of_lookup_none v habs,
      length_insertAt, hlen]

theorem wf_removeKey {m : OrderedSyncMap V} (k : Int) (h : Wf m) :
    Wf (removeKey m k) := by
  obtain ⟨hs, hnd, hns, hlk, hdk, hks, hsk, hlen⟩ := h
  have hndk : m.keys.Nodup := nodup_of_pairwise_lt hs
  have hdata : (removeKey m k).data = mapErase m.data k := rfl
  have hkeys : (removeKey m k).keys = m.keys.erase k :=
    eraseFound_eq_erase k hs
  have hset : (removeKey m k).keySet = m.keySet.erase k := rfl
  refine ⟨?_, ?_, ?_, ?_, ?_, ?_, ?_, ?_⟩
  · rw [hkeys]
    exact pairwise_erase k hs
  · rw [hdata]
    have : (mapErase m.data k).map Prod.fst = (m.data.map Prod.fst).erase k :=
      map_fst_mapErase m.data k
    rw [this]
    exact List.Nodup.sublist (List.erase_sublist k _) hnd
  · rw [hset]
    exact List.Nodup.sublist (List.erase_sublist k _) hns
  · intro a ha
    rw [hkeys] at ha
    rw [hdata]
    rcases (List.Nodup.mem_erase_iff hndk).mp ha with ⟨hne, hmem⟩
    rw [mapLookup_erase_ne _ hne]
    exact hlk a hmem
  · intro p hp
    rw [hdata] at hp
    rw [hkeys]
    have hpm : p ∈ m.data := mem_of_mem_mapErase hp
    have hpne : p.1 ≠ k := fst_ne_of_mem_mapErase hnd hp
    exact (List.mem_erase_of_ne hpne).mpr (hdk p hpm)
  · intro a ha
    rw [hkeys] at ha
    rw [hset]
    rcases (List.Nodup.mem_erase_iff hndk).mp ha with ⟨hne, hmem⟩
    exact (List.Nodup.mem_erase_iff hns).mpr ⟨hne, hks a hmem⟩
  · intro a ha
    rw [hset] at ha
    rw [hkeys]
    rcases (List.Nodup.mem_erase_iff hns).mp ha with ⟨hne, hmem⟩
    exact (List.Nodup.mem_erase_iff hndk).mpr ⟨hne, hsk a hmem⟩
  · rw [hdata, hkeys, length_mapErase]
    by_cases hk : k ∈ m.keys
    · have hkd : k ∈ m.data.map Prod.fst := by
        rw [← mapLookup_isSome_iff]
        exact hlk k hk
      rw [List.length_erase_of_mem hkd, List.length_erase_of_mem hk,
        List.length_map, hlen]
    · have hkd : k ∉ m.data.map Prod.fst := by
        intro hmem
        rcases List.mem_map.mp hmem with ⟨p, hp, hpk⟩
        exact hk (hpk ▸ hdk p hp)
      rw [List.erase_of_not_mem hkd, List.erase_of_not_mem hk,
        List.length_map, hlen]

theorem wf_Store {m : OrderedSyncMap V} (k : Int) (v : V) (h : Wf m) :
    Wf (Store m k v) := by
  by_cases hk : k ∈ m.keySet
  · have hkeys : k ∈ m.keys := h.keySetSubKeys k hk
    have hsome : (mapLookup m.data k).isSome := h.lookupOfMem k hkeys
    obtain ⟨hs, hnd, hns, hlk, hdk, hks, hsk, hlen⟩ := h
    rw [Store, if_pos hk]
    refine ⟨hs, ?_, hns, ?_, ?_, hks, hsk, ?_⟩
    · show ((mapUpdate m.data k v).map Prod.fst).Nodup
      rw [map_fst_update_of_lookup_some v hsome]
      exact hnd
    · intro a ha
      show (mapLookup (mapUpdate m.data k v) a).isSome
      by_cases hak : a = k
      · subst hak
        rw [mapLookup_update_self]
        rfl
      · rw [mapLookup_update_ne _ v hak]
        exact hlk a ha
    · intro p hp
      rcases mem_of_mem_mapUpdate hp with rfl | hp'
      · exact hkeys
      · exact hdk p hp'
    · show (mapUpdate m.data k v).length = m.keys.length
      rw [length_mapUpdate_of_lookup_some v hsome, hlen]
  · rw [Store, if_neg hk]
    exact wf_insertNew v h (h.lookup_none_of_not_keySet hk)

theorem wf_Delete {m : OrderedSyncMap V} (k : Int) (h : Wf m) :
    Wf (Delete m k) := by
  by_cases hk : k ∈ m.keySet
  · rw [Delete, if_pos hk]
    exact wf_removeKey k h
  · rw [Delete, if_neg hk]
    exact h

theorem wf_LoadOrStore {m : OrderedSyncMap V} (k : Int) (v : V) (h : Wf m) :
    Wf (LoadOrStore m k v).1 := by
  cases hc : mapLookup m.data k with
  | some w =>
      rw [LoadOrStore, hc]
      exact h
  | none =>
      rw [LoadOrStore, hc]
      exact wf_insertNew v h hc

theorem wf_LoadAndDelete {V : Type} [Inhabited V] {m : OrderedSyncMap V}
    (k : Int) (h : Wf m) : Wf (LoadAndDelete m k).1 := by
  cases hc : mapLookup m.data k with
  | some w =>
      rw [LoadAndDelete, hc]
      exact wf_removeKey k h
  | none =>
      rw [LoadAndDelete, hc]
      exact h

theorem wf_applyOp {V : Type} [Inhabited V] {m : OrderedSyncMap V}
    (op : Op V) (h : Wf m) : Wf (applyOp m op) := by
  cases op with
  | store k v => exact wf_Store k v h
  | delete k => exact wf_Delete k h
  | loadOrStore k v => exact wf_LoadOrStore k v h
  | loadAndDelete k => exact wf_LoadAndDelete k h

theorem wf_applyOps {V : Type} [Inhabited V] {m : OrderedSyncMap V}
    (ops : List (Op V)) (h : Wf m) : Wf (applyOps m ops) := by
  induction ops generalizing m with
  | nil => exact h
  | cons op rest ih => exact ih (wf_applyOp op h)

end WfLemmas

section RangeLemmas

variable {V : Type}

theorem mem_setInsert_self (l : List Int) (k : Int) : k ∈ setInsert l k := by
  by_cases h : k ∈ l
  · simp [setInsert, h]
  · simp [setInsert, h]

theorem rangeAux_map_fst_sublist (data : List (Int × V)) (f : Int → V → Bool)
    (ks : List Int) : ((rangeAux data f ks).map Prod.fst).Sublist ks := by
  induction ks with
  | nil => simp [rangeAux]
  | cons k rest ih =>
      cases hc : mapLookup data k with
      | none =>
          simp only [rangeAux, hc]
          exact List.Sublist.cons k ih
      | some v =>
          by_cases hf : f k v
          · simp only [rangeAux, hc, if_pos hf, List.map_cons]
            exact List.Sublist.cons₂ k ih
          · simp only [rangeAux, hc, if_neg hf, List.map_cons, List.map_nil]
            exact List.Sublist.cons₂ k (List.nil_sublist rest)

theorem rangeAux_dropLast_true (data : List (Int × V)) (f : Int → V → Bool)
    (ks : List Int) :
    ∀ p ∈ (rangeAux data f ks).dropLast, f p.1 p.2 = true := by
  induction ks with
  | nil => simp [rangeAux]
  | cons k rest ih =>
      intro p hp
      cases hc : mapLookup data k with
      | none =>
          simp only [rangeAux, hc] at hp
          exact ih p hp
      | some v =>
          by_cases hf : f k v
          · simp only [rangeAux, hc, if_pos hf] at hp
            cases hrest : rangeAux data f rest with
            | nil =>
                rw [hrest, List.dropLast_single] at hp
                simp at hp
            | cons q t =>
                rw [hrest, List.dropLast_cons₂, List.mem_cons] at hp
                rcases hp with rfl | hp
                · exact hf
                · exact ih p (hrest ▸ hp)
          · simp only [rangeAux, hc, if_neg hf, List.dropLast_single] at hp
            simp at hp

theorem rangeAux_lookup (data : List (Int × V)) (f : Int → V → Bool)
    (ks : List Int) :
    ∀ p ∈ rangeAux data f ks, mapLookup data p.1 = some p.2 := by
  induction ks with
  | nil => simp [rangeAux]
  | cons k rest ih =>
      intro p hp
      cases hc : mapLookup data k with
      | none =>
          simp only [rangeAux, hc] at hp
          exact ih p hp
      | some v =>
          by_cases hf : f k v
          · simp only [rangeAux, hc, if_pos hf, List.mem_cons] at hp
            rcases hp with rfl | hp
            · exact hc
            · exact ih p hp
          · simp only [rangeAux, hc, if_neg hf] at hp
            simp at hp
            exact hp ▸ hc

theorem rangeAux_all_true (data : List (Int × V)) (f : Int → V → Bool)
    (ks : List Int)
    (hall : ∀ k ∈ ks, ∃ v, mapLookup data k = some v ∧ f k v = true) :
    (rangeAux data f ks).map Prod.fst = ks := by
  induction ks with
  | nil => simp [rangeAux]
  | cons k rest ih =>
      obtain ⟨v, hv, hf⟩ := hall k (List.mem_cons_self _ _)
      simp only [rangeAux, hv, if_pos hf, List.map_cons]
      rw [ih (fun a ha => hall a (List.mem_cons_of_mem _ ha))]

theorem rangeAux_filter_isSome (data : List (Int × V))
    (f : Int → V → Bool) (ks : List Int) :
    rangeAux data f ks =
      rangeAux data f (ks.filter (fun a => (mapLookup data a).isSome)) := by
  induction ks with
  | nil => simp [rangeAux]
  | cons k rest ih =>
      cases hc : mapLookup data k with
      | none =>
          have hF : ((mapLookup data k).isSome = true) = False := by
            rw [hc]
            simp
          rw [List.filter_cons]
          simp only [hF, if_false]
          simp only [rangeAux, hc]
          exact ih
      | some v =>
          have hT : (mapLookup data k).isSome = true := by
            rw [hc]
            rfl
          rw [@List.filter_cons_of_pos Int
            (fun a => (mapLookup data a).isSome) k rest hT]
          simp only [rangeAux, hc]
          by_cases hf : f k v
          · simp [hf, ih]
          · simp [hf]

theorem rangeAux_not_visited_false {data : List (Int × V)}
    {f : Int → V → Bool} (ks : List Int) :
    (∀ a ∈ ks, (mapLookup data a).isSome) → ks.Pairwise (· < ·) →
    ∀ k ∈ ks, k ∉ (rangeAux data f ks).map Prod.fst →
      ∃ p ∈ rangeAux data f ks, f p.1 p.2 = false ∧ p.1 < k := by
  induction ks with
  | nil =>
      intro _ _ k hk
      simp at hk
  | cons k0 rest ih =>
      intro hall hs k hk hnv
      rcases Option.isSome_iff_exists.mp
        (hall k0 (List.mem_cons_self _ _)) with ⟨v, hv⟩
      rw [List.pairwise_cons] at hs
      by_cases hf : f k0 v
      · have hred : rangeAux data f (k0 :: rest) =
            (k0, v) :: rangeAux data f rest := by
          simp [rangeAux, hv, hf]
        rw [hred] at hnv ⊢
        rcases List.mem_cons.mp hk with rfl | hk'
        · exact absurd (by simp) hnv
        · have hnv' : k ∉ (rangeAux data f rest).map Prod.fst := by
            intro hx
            exact hnv (by simp [hx])
          rcases ih (fun a ha => hall a (List.mem_cons_of_mem _ ha)) hs.2
            k hk' hnv' with ⟨p, hp, hpf, hplt⟩
          exact ⟨p, List.mem_cons_of_mem _ hp, hpf, hplt⟩
      · have hred : rangeAux data f (k0 :: rest) = [(k0, v)] := by
          simp [rangeAux, hv, hf]
        rw [hred] at hnv ⊢
        rcases List.mem_cons.mp hk with rfl | hk'
        · exact absurd (by simp) hnv
        · exact ⟨(k0, v), by simp, by simpa using hf, hs.1 k hk'⟩

theorem rangeAux_visited_true_full {data : List (Int × V)}
    {f : Int → V → Bool} (ks : List Int) :
    (∀ a ∈ ks, (mapLookup data a).isSome) →
    (∀ p ∈ rangeAux data f ks, f p.1 p.2 = true) →
    (rangeAux data f ks).map Prod.fst = ks := by
  induction ks with
  | nil =>
      intro _ _
      simp [rangeAux]
  | cons k0 rest ih =>
      intro hall htrue
      rcases Option.isSome_iff_exists.mp
        (hall k0 (List.mem_cons_self _ _)) with ⟨v, hv⟩
      have hf : f k0 v = true := by
        by_contra hfn
        have hmem : (k0, v) ∈ rangeAux data f (k0 :: rest) := by
          simp [rangeAux, hv, hfn]
        exact hfn (htrue _ hmem)
      have hred : rangeAux data f (k0 :: rest) =
          (k0, v) :: rangeAux data f rest := by
        simp [rangeAux, hv, hf]
      rw [hred, List.map_cons,
        ih (fun a ha => hall a (List.mem_cons_of_mem _ ha))
          (fun p hp => htrue p (by rw [hred]; exact List.mem_cons_of_mem _ hp))]

theorem runLoadOrStores_loaded {m : OrderedSyncMap V} {k : Int} {w : V}
    (h : mapLookup m.data k = some w) (vs : List V) :
    runLoadOrStores m k vs = (m, vs.map (fun _ => (w, true))) := by
  induction vs with
  | nil => simp [runLoadOrStores]
  | cons v vs ih => simp [runLoadOrStores, LoadOrStore, h, ih]

end RangeLemmas

/-- C1: starting from `NewOrderedSyncMap` and applying any finite sequence
of `Store`, `Delete`, `LoadOrStore` and `LoadAndDelete` operations with
`int` keys, at every quiescent point the keys sequence is strictly
ascending with no duplicates, a key is in the keys sequence iff it has an
entry in the data mapping (and iff it is in `keySet`), and `Len` equals
the length of the keys sequence. -/
theorem claim_C1_invariants {V : Type} [Inhabited V] (ops : List (Op V)) :
    (Keys (applyOps (NewOrderedSyncMap V) ops)).Pairwise (· < ·) ∧
    (Keys (applyOps (NewOrderedSyncMap V) ops)).Nodup ∧
    (∀ k : Int, k ∈ Keys (applyOps (NewOrderedSyncMap V) ops) ↔
      (mapLookup (applyOps (NewOrderedSyncMap V) ops).data k).isSome) ∧
    (∀ k : Int, k ∈ Keys (applyOps (NewOrderedSyncMap V) ops) ↔
      k ∈ (applyOps (NewOrderedSyncMap V) ops).keySet) ∧
    Len (applyOps (NewOrderedSyncMap V) ops) =
      (Keys (applyOps (NewOrderedSyncMap V) ops)).length := by
  have h := wf_applyOps ops wf_new
  exact ⟨h.sorted, nodup_of_pairwise_lt h.sorted,
    fun k => h.mem_keys_iff_lookup k, fun k => h.mem_keys_iff_keySet k,
    h.lenEq⟩

/-- C2: on a well-formed state, `LoadOrStore(k, v)` on a live key returns
the current value with `loaded = true` and leaves the state unchanged; on
an absent key it returns `(v, false)`, inserts `k` at the binary-search
position `p = searchInts keys k` (every earlier key `< k`, every later
key `≥ k`), and records `k` in `keySet` and the data mapping. -/
theorem claim_C2_loadOrStore {V : Type} (m : OrderedSyncMap V) (k : Int)
    (v : V) (hWf : Wf m) :
    (∀ w, mapLookup m.data k = some w → LoadOrStore m k v = (m, w, true)) ∧
    (mapLookup m.data k = none →
      (LoadOrStore m k v).2 = (v, false) ∧
      (LoadOrStore m k v).1.keys =
        m.keys.take (searchInts m.keys k) ++
          k :: m.keys.drop (searchInts m.keys k) ∧
      (∀ x ∈ m.keys.take (searchInts m.keys k), x < k) ∧
      (∀ x ∈ m.keys.drop (searchInts m.keys k), k ≤ x) ∧
      k ∈ (LoadOrStore m k v).1.keySet ∧
      mapLookup (LoadOrStore m k v).1.data k = some v) := by
  constructor
  · intro w hw
    rw [LoadOrStore, hw]
  · intro hn
    have hred : LoadOrStore m k v = (insertNew m k v, v, false) := by
      rw [LoadOrStore, hn]
    rw [hred]
    refine ⟨rfl, ?_, ?_, ?_, ?_, ?_⟩
    · exact insertAt_eq_take_drop k _ m.keys (searchInts_le_length m.keys k)
    · exact fun x hx => lt_of_mem_take_searchInts hx
    · exact fun x hx => le_of_mem_drop_searchInts hWf.sorted hx
    · exact mem_setInsert_self m.keySet k
    · exact mapLookup_update_self m.data k v

/-- C2 witness: instantiated at the absent key 3 of a concrete two-entry
container. -/
theorem claim_C2_witness :
    (LoadOrStore (⟨[(1, 10), (5, 50)], [1, 5], [1, 5]⟩ :
      OrderedSyncMap Nat) 3 7).2 = (7, false) :=
  ((claim_C2_loadOrStore
    (⟨[(1, 10), (5, 50)], [1, 5], [1, 5]⟩ : OrderedSyncMap Nat) 3 7
    (by decide)).2 (by decide)).1

/-- C4: `Store(k, v)` followed immediately by `Load(k)` returns
`(v, true)`, on every container state. -/
theorem claim_C4_store_load_roundtrip {V : Type} [Inhabited V]
    (m : OrderedSyncMap V) (k : Int) (v : V) :
    Load (Store m k v) k = (v, true) := by
  have hdata : (Store m k v).data = mapUpdate m.data k v := by
    rw [Store]
    split <;> rfl
  rw [Load, hdata, mapLookup_update_self]

/-- C4 has universally quantified non-propositional arguments only; this
closed instance evaluates it on a concrete state. -/
theorem claim_C4_witness :
    Load (Store (NewOrderedSyncMap Nat) 3 7) 3 = (7, true) :=
  claim_C4_store_load_roundtrip (NewOrderedSyncMap Nat) 3 7

/-- C5: on a well-formed state, `Delete(k)` on an absent key leaves the
state unchanged, and deleting twice in a row equals deleting once. -/
theorem claim_C5_delete_idempotent {V : Type} (m : OrderedSyncMap V)
    (k : Int) (hWf : Wf m) :
    (k ∉ m.keySet → Delete m k = m) ∧
    Delete (Delete m k) k = Delete m k := by
  constructor
  · intro hk
    rw [Delete, if_neg hk]
  · by_cases hk : k ∈ m.keySet
    · have h1 : Delete m k = removeKey m k := by rw [Delete, if_pos hk]
      have hk2 : k ∉ (removeKey m k).keySet := by
        show k ∉ m.keySet.erase k
        intro hmem
        exact ((List.Nodup.mem_erase_iff hWf.nodupKeySet).mp hmem).1 rfl
      rw [h1, Delete, if_neg hk2]
    · have h1 : Delete m k = m := by rw [Delete, if_neg hk]
      rw [h1, h1]

/-- C5 witness: instantiated on a concrete one-entry container. -/
theorem claim_C5_witness :
    Delete (Delete (⟨[(2, 9)], [2], [2]⟩ : OrderedSyncMap Nat) 2) 2 =
      Delete (⟨[(2, 9)], [2], [2]⟩ : OrderedSyncMap Nat) 2 :=
  (claim_C5_delete_idempotent (⟨[(2, 9)], [2], [2]⟩ : OrderedSyncMap Nat) 2
    (by decide)).2

/-- C6: frame property of `Store`. On a live key it leaves `keys` and
`keySet` unchanged and modifies only the value bound to `k`; on an absent
key it grows the keys sequence by exactly one and leaves the values of
all other keys unchanged. -/
theorem claim_C6_store_frame {V : Type} (m : OrderedSyncMap V) (k : Int)
    (v : V) :
    (k ∈ m.keySet →
      (Store m k v).keys = m.keys ∧
      (Store m k v).keySet = m.keySet ∧
      mapLookup (Store m k v).data k = some v ∧
      (∀ k2, k2 ≠ k →
        mapLookup (Store m k v).data k2 = mapLookup m.data k2)) ∧
    (k ∉ m.keySet →
      (Store m k v).keys.length = m.keys.length + 1 ∧
      (∀ k2, k2 ≠ k →
        mapLookup (Store m k v).data k2 = mapLookup m.data k2)) := by
  constructor
  · intro hk
    rw [Store, if_pos hk]
    exact ⟨rfl, rfl, mapLookup_update_self m.data k v,
      fun k2 hne => mapLookup_update_ne m.data v hne⟩
  · intro hk
    rw [Store, if_neg hk]
    exact ⟨length_insertAt k _ m.keys,
      fun k2 hne => mapLookup_update_ne m.data v hne⟩

/-- C3: on a well-formed state, `LoadAndDelete(k)` on a live key removes
the entry from the keys sequence, the data mapping and `keySet` and
returns the removed value with `loaded = true`; on an absent key it
returns `(zero, false)` with no mutation. Its resulting state and result
equal those of `Load(k)` followed by `Delete(k)` on the same state. -/
theorem claim_C3_loadAndDelete {V : Type} [Inhabited V]
    (m : OrderedSyncMap V) (k : Int) (hWf : Wf m) :
    (∀ v, mapLookup m.data k = some v →
      (LoadAndDelete m k).2 = (v, true) ∧
      k ∉ (LoadAndDelete m k).1.keys ∧
      mapLookup (LoadAndDelete m k).1.data k = none ∧
      k ∉ (LoadAndDelete m k).1.keySet) ∧
    (mapLookup m.data k = none → LoadAndDelete m k = (m, default, false)) ∧
    (LoadAndDelete m k).1 = Delete m k ∧
    (LoadAndDelete m k).2 = Load m k := by
  refine ⟨?_, ?_, ?_, ?_⟩
  · intro v hv
    have hred : LoadAndDelete m k = (removeKey m k, v, true) := by
      rw [LoadAndDelete, hv]
    rw [hred]
    refine ⟨rfl, ?_, mapLookup_erase_self hWf.nodupData, ?_⟩
    · show k ∉ eraseFound m.keys k
      rw [eraseFound_eq_erase k hWf.sorted]
      intro hmem
      exact ((List.Nodup.mem_erase_iff
        (nodup_of_pairwise_lt hWf.sorted)).mp hmem).1 rfl
    · show k ∉ m.keySet.erase k
      intro hmem
      exact ((List.Nodup.mem_erase_iff hWf.nodupKeySet).mp hmem).1 rfl
  · intro hn
    rw [LoadAndDelete, hn]
  · cases hc : mapLookup m.data k with
    | some v =>
        have hsome : (mapLookup m.data k).isSome := by rw [hc]; rfl
        have hset : k ∈ m.keySet :=
          hWf.keysSubKeySet k ((hWf.mem_keys_iff_lookup k).mpr hsome)
        rw [LoadAndDelete, hc, Delete, if_pos hset]
    | none =>
        have hset : k ∉ m.keySet := fun hx => by
          have hsome := hWf.lookupOfMem k (hWf.keySetSubKeys k hx)
          rw [hc] at hsome
          exact absurd hsome (by simp)
        rw [LoadAndDelete, hc, Delete, if_neg hset]
  · cases hc : mapLookup m.data k with
    | some v => simp [LoadAndDelete, Load, hc]
    | none => simp [LoadAndDelete, Load, hc]

/-- C3 witness: instantiated at the live key 2 of a concrete container. -/
theorem claim_C3_witness :
    (LoadAndDelete (⟨[(2, 9)], [2], [2]⟩ : OrderedSyncMap Nat) 2).2 =
      (9, true) :=
  ((claim_C3_loadAndDelete (⟨[(2, 9)], [2], [2]⟩ : OrderedSyncMap Nat) 2
    (by decide)).1 9 (by decide)).1

/-- Helper for C7 and C10: a key of the visited sequence is visited
together with its current data-mapping value. -/
theorem mem_rangeAux_of_lookup {V : Type} {data : List (Int × V)}
    {f : Int → V → Bool} {ks : List Int} {k : Int} {v : V}
    (hmem : k ∈ (rangeAux data f ks).map Prod.fst)
    (hv : mapLookup data k = some v) :
    (k, v) ∈ rangeAux data f ks := by
  rcases List.mem_map.mp hmem with ⟨⟨p1, p2⟩, hp, hpk⟩
  have h1 : p1 = k := hpk
  subst h1
  have hl : mapLookup data p1 = some p2 :=
    rangeAux_lookup data f ks _ hp
  rw [hv] at hl
  have h2 : p2 = v := by
    injection hl with h
    exact h.symm
  subst h2
  exact hp

/-- C7: `Range(visit)` invokes `visit` on entries in strictly ascending
key order whenever the key index is sorted; no entry after one on which
`visit` returned `false` is visited; every visited pair carries the key's
current mapping value; a key of the key index with no entry in the
mapping is silently skipped — it is never visited and the traversal
equals the traversal of the mapped keys alone (these skip conjuncts hold
on arbitrary, even ill-formed, states with no well-formedness
hypothesis); and under the container invariants the skip branch is never
taken: a live key absent from the visited sequence implies `visit`
returned `false` on some earlier visited entry, and if `visit` returned
`true` on every visited entry then every key of the index is visited. -/
theorem claim_C7_range {V : Type} (m : OrderedSyncMap V)
    (f : Int → V → Bool) :
    (m.keys.Pairwise (· < ·) →
      ((Range m f).map Prod.fst).Pairwise (· < ·)) ∧
    (∀ p ∈ (Range m f).dropLast, f p.1 p.2 = true) ∧
    (∀ p ∈ Range m f, mapLookup m.data p.1 = some p.2) ∧
    (∀ k ∈ m.keys, mapLookup m.data k = none →
      k ∉ (Range m f).map Prod.fst) ∧
    Range m f =
      rangeAux m.data f (m.keys.filter (fun a => (mapLookup m.data a).isSome)) ∧
    (Wf m → ∀ k ∈ m.keys, k ∉ (Range m f).map Prod.fst →
      ∃ p ∈ Range m f, f p.1 p.2 = false ∧ p.1 < k) ∧
    (Wf m → (∀ p ∈ Range m f, f p.1 p.2 = true) →
      (Range m f).map Prod.fst = m.keys) := by
  refine ⟨?_, ?_, ?_, ?_, ?_, ?_, ?_⟩
  · intro hs
    exact List.Pairwise.sublist (rangeAux_map_fst_sublist m.data f m.keys) hs
  · exact rangeAux_dropLast_true m.data f m.keys
  · exact rangeAux_lookup m.data f m.keys
  · intro k _ hn hmem
    rcases List.mem_map.mp hmem with ⟨p, hp, hpk⟩
    have hl := rangeAux_lookup m.data f m.keys p hp
    rw [hpk, hn] at hl
    exact Option.noConfusion hl
  · exact rangeAux_filter_isSome m.data f m.keys
  · intro hWf
    exact rangeAux_not_visited_false m.keys hWf.lookupOfMem hWf.sorted
  · intro hWf
    exact rangeAux_visited_true_full m.keys hWf.lookupOfMem

/-- C7 witness: on an ill-formed state whose index key 3 has no mapping
entry, the traversal silently skips key 3 (the skip conjunct applied with
its hypotheses discharged at a concrete input). -/
theorem claim_C7_witness :
    (3 : Int) ∉ (Range (⟨[(1, 10), (5, 50)], [1, 3, 5], [1, 3, 5]⟩ :
      OrderedSyncMap Nat) (fun _ _ => true)).map Prod.fst :=
  (claim_C7_range (⟨[(1, 10), (5, 50)], [1, 3, 5], [1, 3, 5]⟩ :
    OrderedSyncMap Nat) (fun _ _ => true)).2.2.2.1 3 (by decide) (by decide)

/-- C8: every operation invoked with a key that is not an `int` panics at
the `key.(int)` type assertion instead of returning normally, and leaves
the container state (data, keys, keySet) unchanged. -/
theorem claim_C8_domain_mismatch {V : Type} [Inhabited V]
    (m : OrderedSyncMap V) (key : GoKey) (v : V) (h : asInt key = none) :
    StoreDyn m key v = (m, none) ∧
    LoadDyn m key = (m, none) ∧
    DeleteDyn m key = (m, none) ∧
    LoadOrStoreDyn m key v = (m, none) ∧
    LoadAndDeleteDyn m key = (m, none) := by
  refine ⟨?_, ?_, ?_, ?_, ?_⟩ <;>
    simp [StoreDyn, LoadDyn, DeleteDyn, LoadOrStoreDyn, LoadAndDeleteDyn, h]

/-- C8 witness: a string key makes `Store` panic with no state change. -/
theorem claim_C8_witness :
    StoreDyn (NewOrderedSyncMap Nat) (GoKey.str "x") 0 =
      (NewOrderedSyncMap Nat, none) :=
  (claim_C8_domain_mismatch (NewOrderedSyncMap Nat) (GoKey.str "x") 0
    rfl).1

/-- C9: under the linearization that the container's single write lock
forces on N concurrent `LoadOrStore(k, vᵢ)` callers for an initially
absent key (callers in lock-acquisition order `v :: vs`), exactly the
first caller gets `loaded = false`; every other caller gets
`loaded = true` with the first caller's value, and a subsequent `Load(k)`
returns that winning value. -/
theorem claim_C9_loadOrStore_exactly_once {V : Type} [Inhabited V]
    (m : OrderedSyncMap V) (k : Int) (v : V) (vs : List V)
    (habs : mapLookup m.data k = none) :
    (runLoadOrStores m k (v :: vs)).2 =
      (v, false) :: vs.map (fun _ => (v, true)) ∧
    Load (runLoadOrStores m k (v :: vs)).1 k = (v, true) := by
  have h1 : LoadOrStore m k v = (insertNew m k v, v, false) := by
    rw [LoadOrStore, habs]
  have h2 : mapLookup (insertNew m k v).data k = some v :=
    mapLookup_update_self m.data k v
  have h3 : runLoadOrStores (insertNew m k v) k vs =
      (insertNew m k v, vs.map (fun _ => (v, true))) :=
    runLoadOrStores_loaded h2 vs
  constructor
  · simp [runLoadOrStores, h1, h3]
  · simp [runLoadOrStores, h1, h3, Load, h2]

/-- C9 witness: three callers racing on absent key 1; the later two load
the winning value 5. -/
theorem claim_C9_witness :
    Load (runLoadOrStores (NewOrderedSyncMap Nat) 1 (5 :: [6, 7])).1 1 =
      (5, true) :=
  (claim_C9_loadOrStore_exactly_once (NewOrderedSyncMap Nat) 1 5 [6, 7]
    (by decide)).2

/-- C10: nil values are first-class. On a well-formed state, after
`Store(k, nil)` the key `k` is live: `Load(k)` returns `(nil, true)`,
`LoadOrStore(k, w)` returns `(nil, true)` without mutating, `Len` counts
`k` (it equals the key-index length, which contains `k`), and `Range`
visits `(k, nil)` — the loaded flag reflects membership in the mapping,
not non-nilness of the stored value. -/
theorem claim_C10_nil_values (m : OrderedSyncMap (Option Nat)) (k : Int)
    (hWf : Wf m) :
    Load (Store m k none) k = (none, true) ∧
    (∀ w, LoadOrStore (Store m k none) k w = (Store m k none, none, true)) ∧
    k ∈ (Store m k none).keys ∧
    Len (Store m k none) = (Store m k none).keys.length ∧
    (k, none) ∈ Range (Store m k none) (fun _ _ => true) := by
  have hW : Wf (Store m k none) := wf_Store k none hWf
  have hdata : (Store m k none).data = mapUpdate m.data k none := by
    rw [Store]
    split <;> rfl
  have hlook : mapLookup (Store m k none).data k = some none := by
    rw [hdata]
    exact mapLookup_update_self m.data k none
  have hsome : (mapLookup (Store m k none).data k).isSome := by
    rw [hlook]
    rfl
  have hmemkeys : k ∈ (Store m k none).keys :=
    (hW.mem_keys_iff_lookup k).mpr hsome
  refine ⟨?_, ?_, hmemkeys, hW.lenEq, ?_⟩
  · rw [Load, hlook]
  · intro w
    rw [LoadOrStore, hlook]
  · have hall : (Range (Store m k none) (fun _ _ => true)).map Prod.fst =
        (Store m k none).keys := by
      apply rangeAux_all_true
      intro a ha
      rcases Option.isSome_iff_exists.mp (hW.lookupOfMem a ha) with ⟨v, hv⟩
      exact ⟨v, hv, rfl⟩
    exact mem_rangeAux_of_lookup (hall.symm ▸ hmemkeys) hlook

/-- C10 witness: storing nil at key 3 of a concrete container makes it
live for `Load`. -/
theorem claim_C10_witness :
    Load (Store (⟨[(1, some 10)], [1], [1]⟩ : OrderedSyncMap (Option Nat))
      3 none) 3 = (none, true) :=
  (claim_C10_nil_values
    (⟨[(1, some 10)], [1], [1]⟩ : OrderedSyncMap (Option Nat)) 3
    (by decide)).1

/-- C6 witness: overwrite of the live key 2 leaves the index unchanged. -/
theorem claim_C6_witness :
    (Store (⟨[(2, 9)], [2], [2]⟩ : OrderedSyncMap Nat) 2 7).keys =
      (⟨[(2, 9)], [2], [2]⟩ : OrderedSyncMap Nat).keys :=
  ((claim_C6_store_frame (⟨[(2, 9)], [2], [2]⟩ : OrderedSyncMap Nat) 2 7).1
    (by decide)).1

/-- Concrete scenario: `Store(10,·)`, `Store(5,·)`, `Store(20,·)`,
`Delete(5)` leaves `Keys() = [10, 20]`. -/
theorem scenario_store_delete_keys :
    Keys (applyOps (NewOrderedSyncMap Nat)
      [.store 10 1, .store 5 2, .store 20 3, .delete 5]) = [10, 20] := by
  decide

/-- Insertion-order independence: inserting `[5, 1, 3, 2, 4]` in that
order yields `Keys() = [1, 2, 3, 4, 5]`. -/
theorem scenario_insertion_order_independence :
    Keys (applyOps (NewOrderedSyncMap Nat)
      [.store 5 0, .store 1 0, .store 3 0, .store 2 0, .store 4 0]) =
      [1, 2, 3, 4, 5] := by
  decide

/-- Concrete scenario: `Range` visits the remaining entries in ascending
key order. -/
theorem scenario_range_order :
    Range (applyOps (NewOrderedSyncMap Nat)
      [.store 10 1, .store 5 2, .store 20 3, .delete 5])
      (fun _ _ => true) = [(10, 1), (20, 3)] := by
  decide

/-- A mixed operation sequence reaches a well-formed state (decidable
instance sanity check). -/
theorem scenario_wf_mixed_ops :
    Wf (applyOps (NewOrderedSyncMap Nat)
      [.store 10 1, .store 5 2, .loadOrStore 20 3, .loadAndDelete 5]) := by
  decide

end OrderedMap
